import Mathlib

/-!
Verification development for the quantized-linear layer module
(`bitblas/module/__init__.py`): the bit-packing codec
(`unpack_qweight`, `unpack_qzeros`, `unpack_qzeros_v2` and the packing
function), the GPTQ repacking paths (`repack_from_gptq`,
`repack_from_gptq_v2`), the operator cache (`_get_or_create_bitblas_operator`),
the forward-dispatch argument sequence, and the construction-time buffer
shapes.

Modelling conventions.
* Tensors are `List (List Int)` (integer storage) or tagged `List (List ℚ)`
  matrices (floating-point buffers); the elementwise loops of the source act
  row by row, so 2-D operations are `List.map` of a row function.
* A `torch.int8` / `torch.int32` storage unit is modelled by its signed
  integer value.  Python's `>>` on a signed integer is an arithmetic shift,
  i.e. floor division: `Int.fdiv`.  `torch.bitwise_and x (2^b - 1)` keeps the
  low `b` bits of the two's-complement representation, i.e. `x % 2^b`
  (`Int.emod`, which is non-negative).  Writing a wider intermediate into an
  `int8` tensor truncates to the low 8 bits, reinterpreted as a signed value:
  `int8wrap`.
* Floating-point buffers are modelled with exact rational values plus a dtype
  tag; the claims under study are structural (which values are stored, and
  with which dtype), not about rounding error.
-/

/-- Two's-complement wrap of an integer into the signed 8-bit range
`[-128, 128)`: the value that lands in a `torch.int8` tensor cell when a wider
value is stored into it. -/
def int8wrap (x : Int) : Int := (x + 128) % 256 - 128

/-- The `N`-bit two's-complement bit pattern of a (possibly negative) integer
storage unit, as a natural number in `[0, 2^N)`.  This is the unsigned view of
the unit that the spec's extraction formula is phrased over. -/
def toPattern (N : Nat) (v : Int) : Nat := (v % ((2 : Int) ^ N)).toNat

/-- Logical (unsigned) extraction of sub-field `i` of width `bits` from a
storage-unit bit pattern `u`: `(u >> (bits*i)) & (2^bits - 1)`, a logical
right shift followed by a mask, with no sign extension. -/
def extractField (u : Nat) (bits i : Nat) : Nat :=
  (u >>> (bits * i)) &&& (2 ^ bits - 1)

/-- One output cell of `unpack_qweight` (and of the loop shared by
`unpack_qzeros` / `unpack_qzeros_v2` followed by the final mask of the v2
variant): the storage unit `u` is arithmetically shifted right by `bits * i`
(`qweight[:, col // elems] >> (bits * i)`), the result is stored into the
`int8` output tensor (truncating wrap), and the whole output is masked with
`torch.bitwise_and (2 ** bits - 1)` (kept in `int8`). -/
def unpack_cell (bits : Nat) (u : Int) (i : Nat) : Int :=
  int8wrap ((int8wrap (Int.fdiv u (2 ^ (bits * i)))) % 2 ^ bits)

/-- One output cell of `unpack_qzeros`: as `unpack_cell`, but with the
documented off-by-one correction `unpacked_zeros + 1` (an `int8` addition)
applied before the final mask `torch.bitwise_and (unpacked_zeros + 1, 2**bits - 1)`. -/
def unpack_qzeros_cell (bits : Nat) (u : Int) (i : Nat) : Int :=
  int8wrap ((int8wrap (int8wrap (Int.fdiv u (2 ^ (bits * i))) + 1)) % 2 ^ bits)

/-- One row of `unpack_qweight(qweight, bits)`: the storage units are `int8`
(`N = 8`), each holding `8 // bits` sub-fields; output column `col` reads
sub-field `col % (8 // bits)` of unit `col // (8 // bits)`. -/
def unpack_qweight_row (bits : Nat) (row : List Int) : List Int :=
  (List.range (row.length * (8 / bits))).map fun col =>
    unpack_cell bits (row.getD (col / (8 / bits)) 0) (col % (8 / bits))

/-- Source function `unpack_qweight(qweight, bits)`: `qweight` viewed as
`int8` storage, unpacked to `qweight.shape[1] * (8 // bits)` columns of
`bits`-wide fields, the output tensor having dtype `torch.int8`. -/
def unpack_qweight (qweight : List (List Int)) (bits : Nat) : List (List Int) :=
  qweight.map (unpack_qweight_row bits)

/-- One row of `unpack_qzeros(qzeros, bits)`: `int32` storage units
(`N = 32`), `32 // bits` sub-fields each, with the `+ 1` correction. -/
def unpack_qzeros_row (bits : Nat) (row : List Int) : List Int :=
  (List.range (row.length * (32 / bits))).map fun col =>
    unpack_qzeros_cell bits (row.getD (col / (32 / bits)) 0) (col % (32 / bits))

/-- Source function `unpack_qzeros(qzeros, bits)`: `qzeros` viewed as `int32`,
unpacked into an `int8` tensor, then `(unpacked + 1) & (2**bits - 1)`. -/
def unpack_qzeros (qzeros : List (List Int)) (bits : Nat) : List (List Int) :=
  qzeros.map (unpack_qzeros_row bits)

/-- One row of `unpack_qzeros_v2(qzeros, bits)`: same extraction as
`unpack_qzeros` but without the `+ 1` correction
(`torch.bitwise_and(unpacked, 2**bits - 1)`). -/
def unpack_qzeros_v2_row (bits : Nat) (row : List Int) : List Int :=
  (List.range (row.length * (32 / bits))).map fun col =>
    unpack_cell bits (row.getD (col / (32 / bits)) 0) (col % (32 / bits))

/-- Source function `unpack_qzeros_v2(qzeros, bits)` (the gptqv2 variant). -/
def unpack_qzeros_v2 (qzeros : List (List Int)) (bits : Nat) : List (List Int) :=
  qzeros.map (unpack_qzeros_v2_row bits)

/-- Horner-form value of a list of base-`B` digits, least significant first:
`ofFields B [f0, f1, ...] = f0 + B * (f1 + B * ...)`. -/
def ofFields (B : Nat) : List Nat → Nat
  | [] => 0
  | f :: fs => f + B * ofFields B fs

/-- Chunk `j` of a row being packed: its `8 / bits` consecutive fields
(the spec's packing range check is not modelled; negative entries are clamped
by `Int.toNat`, and all theorems below assume in-range inputs). -/
def pack_chunk (bits : Nat) (row : List Int) (j : Nat) : List Nat :=
  (List.range (8 / bits)).map fun k => (row.getD (j * (8 / bits) + k) 0).toNat

/-- One packed row.  Modelled from the spec: the codec's packing function
(`general_compress`, imported from `bitblas.quantization.utils`, not part of
the shown source) ORs together `bits`-wide fields at increasing shift offsets
into each `int8` storage unit.  Since legal field values occupy disjoint bit
positions, the OR of the shifted fields is their base-`2^bits` Horner sum;
the sum is stored in an `int8` unit, hence the `int8wrap`. -/
def pack_row (bits : Nat) (row : List Int) : List Int :=
  (List.range (row.length / (8 / bits))).map fun j =>
    int8wrap ((ofFields (2 ^ bits) (pack_chunk bits row j) : Nat) : Int)

/-- Modelled from the spec: the codec's packing function (`general_compress`)
applied row-wise to a 2-D integer array, producing `int8` storage units. -/
def general_compress (x : List (List Int)) (bits : Nat) : List (List Int) :=
  x.map (pack_row bits)

example : unpack_qweight (general_compress [[3, 5]] 4) 4 = [[3, 5]] := by decide
example : unpack_qweight (general_compress [[(128 : Int)]] 8) 8 = [[-128]] := by decide
example : unpack_qzeros [[(15 : Int)]] 4 = [[0, 1, 1, 1, 1, 1, 1, 1]] := by decide
example : unpack_qzeros_v2 [[(15 : Int)]] 4 = [[15, 0, 0, 0, 0, 0, 0, 0]] := by decide
example : unpack_qzeros [[(200 : Int)]] 8 = [[-55, 1, 1, 1]] := by decide
example : unpack_qzeros_v2 [[(200 : Int)]] 8 = [[-56, 0, 0, 0]] := by decide
example : unpack_qweight [[(-1 : Int)]] 8 = [[-1]] := by decide
example : extractField (toPattern 8 (-1)) 8 0 = 255 := by decide
example : unpack_qweight [[(-3 : Int)]] 4 = [[13, 15]] := by decide

lemma int8wrap_eq_self {x : Int} (h1 : -128 ≤ x) (h2 : x < 128) : int8wrap x = x := by
  unfold int8wrap
  rw [Int.emod_eq_of_lt (by omega) (by omega)]
  omega

lemma int8wrap_emod (x : Int) {b : Nat} (hb : b ≤ 8) :
    int8wrap x % 2 ^ b = x % 2 ^ b := by
  have hdvd : (2 : Int) ^ b ∣ 2 ^ 8 := pow_dvd_pow 2 hb
  have h256 : (256 : Int) = 2 ^ 8 := by norm_num
  unfold int8wrap
  rw [h256, Int.sub_emod, Int.emod_emod_of_dvd _ hdvd, ← Int.sub_emod]
  simp

lemma toPattern_cast (N : Nat) (v : Int) : (toPattern N v : Int) = v % 2 ^ N := by
  unfold toPattern
  exact Int.toNat_of_nonneg (Int.emod_nonneg v (by positivity : (0:Int) < 2 ^ N).ne')

lemma extractField_eq_div_mod (u bits i : Nat) :
    extractField u bits i = u / 2 ^ (bits * i) % 2 ^ bits := by
  unfold extractField
  rw [Nat.shiftRight_eq_div_pow, Nat.and_pow_two_sub_one_eq_mod]

lemma extractField_lt (u bits i : Nat) : extractField u bits i < 2 ^ bits := by
  rw [extractField_eq_div_mod]
  exact Nat.mod_lt _ (by positivity)

lemma int8_shift_mask (N bits i : Nat) (u : Int) (h8 : bits ≤ 8)
    (hN : bits * i + bits ≤ N) :
    int8wrap (Int.fdiv u (2 ^ (bits * i))) % 2 ^ bits
      = ((extractField (toPattern N u) bits i : Nat) : Int) := by
  rw [int8wrap_emod _ h8, Int.fdiv_eq_ediv _ (by positivity : (0:Int) < 2 ^ (bits * i)).le,
    extractField_eq_div_mod]
  have hp : (toPattern N u : Int) = u % 2 ^ N := toPattern_cast N u
  generalize hP : toPattern N u = p at hp ⊢
  obtain ⟨t, ht⟩ : ∃ t : Int, u = (p : Int) + t * 2 ^ N :=
    ⟨u / 2 ^ N, by rw [hp]; linear_combination (-1 : Int) * Int.emod_add_ediv u (2 ^ N)⟩
  rw [ht]
  have e1 : ((2:Int) ^ N) = 2 ^ (N - bits * i) * 2 ^ (bits * i) := by
    rw [← pow_add]
    congr 1
    omega
  rw [e1, show (p : Int) + t * (2 ^ (N - bits * i) * 2 ^ (bits * i))
        = (p : Int) + t * 2 ^ (N - bits * i) * 2 ^ (bits * i) by ring,
    Int.add_mul_ediv_right _ _ (by positivity : (0:Int) < 2 ^ (bits * i)).ne']
  have e2 : ((2:Int) ^ (N - bits * i)) = 2 ^ (N - bits * i - bits) * 2 ^ bits := by
    rw [← pow_add]
    congr 1
    omega
  rw [e2, show (p : Int) / 2 ^ (bits * i) + t * (2 ^ (N - bits * i - bits) * 2 ^ bits)
        = (p : Int) / 2 ^ (bits * i) + t * 2 ^ (N - bits * i - bits) * 2 ^ bits by ring,
    Int.add_mul_emod_self]
  push_cast
  rfl

lemma unpack_cell_eq (N bits i : Nat) (u : Int) (h8 : bits ≤ 8)
    (hN : bits * i + bits ≤ N) :
    unpack_cell bits u i
      = int8wrap ((extractField (toPattern N u) bits i : Nat) : Int) := by
  unfold unpack_cell
  rw [int8_shift_mask N bits i u h8 hN]

lemma one_lt_two_pow_int {b : Nat} (h0 : 0 < b) : (1 : Int) < 2 ^ b := by
  calc (1 : Int) < 2 ^ 1 := by norm_num
    _ ≤ 2 ^ b := pow_le_pow_right₀ (by norm_num) h0

lemma unpack_qzeros_cell_eq (bits i : Nat) (u : Int) (h8 : bits ≤ 8) (h0 : 0 < bits)
    (hN : bits * i + bits ≤ 32) :
    unpack_qzeros_cell bits u i
      = int8wrap ((((extractField (toPattern 32 u) bits i : Nat) : Int) + 1) % 2 ^ bits) := by
  unfold unpack_qzeros_cell
  rw [int8wrap_emod _ h8, Int.add_emod, int8_shift_mask 32 bits i u h8 hN,
    Int.emod_eq_of_lt (by norm_num) (one_lt_two_pow_int h0)]

lemma ofFields_lt (B : Nat) (fs : List Nat) (h : ∀ f ∈ fs, f < B) :
    ofFields B fs < B ^ fs.length := by
  induction fs with
  | nil => simp [ofFields]
  | cons f fs ih =>
    have hf : f < B := h f (List.mem_cons_self f fs)
    have hrest : ofFields B fs < B ^ fs.length :=
      ih (fun g hg => h g (List.mem_cons_of_mem f hg))
    simp only [List.length_cons]
    calc ofFields B (f :: fs) = f + B * ofFields B fs := rfl
      _ < B + B * ofFields B fs := by omega
      _ = B * (ofFields B fs + 1) := by ring
      _ ≤ B * B ^ fs.length := Nat.mul_le_mul_left B hrest
      _ = B ^ (fs.length + 1) := (pow_succ' B _).symm

lemma ofFields_extract (B : Nat) (hB : 0 < B) (fs : List Nat) (h : ∀ f ∈ fs, f < B)
    (i : Nat) (hi : i < fs.length) :
    ofFields B fs / B ^ i % B = fs.getD i 0 := by
  induction fs generalizing i with
  | nil => simp at hi
  | cons f fs ih =>
    have hf : f < B := h f (List.mem_cons_self f fs)
    cases i with
    | zero =>
      simp only [pow_zero, Nat.div_one, List.getD_cons_zero]
      show (f + B * ofFields B fs) % B = f
      rw [Nat.add_mul_mod_self_left]
      exact Nat.mod_eq_of_lt hf
    | succ i =>
      have hi' : i < fs.length := by simpa using hi
      have hstep : ofFields B (f :: fs) / B ^ (i + 1) = ofFields B fs / B ^ i := by
        rw [pow_succ', ← Nat.div_div_eq_div_mul]
        congr 1
        show (f + B * ofFields B fs) / B = ofFields B fs
        rw [Nat.add_mul_div_left _ _ hB, Nat.div_eq_of_lt hf]
        omega
      rw [hstep, List.getD_cons_succ]
      exact ih (fun g hg => h g (List.mem_cons_of_mem f hg)) i hi'

lemma getD_map_range {α : Type} (n : Nat) (f : Nat → α) (d : α) (c : Nat) (hc : c < n) :
    ((List.range n).map f).getD c d = f c := by
  rw [List.getD_eq_getElem _ _ (by simpa using hc)]
  simp

lemma unpack_cell_pack (bits e : Nat) (hbe : bits * e = 8)
    (fs : List Nat) (hlen : fs.length = e)
    (hlt : ∀ f ∈ fs, f < 2 ^ bits) (h127 : ∀ f ∈ fs, f ≤ 127)
    (i : Nat) (hi : i < e) :
    unpack_cell bits (int8wrap ((ofFields (2 ^ bits) fs : Nat) : Int)) i
      = ((fs.getD i 0 : Nat) : Int) := by
  have he : 0 < e := Nat.pos_of_ne_zero (by rintro rfl; simp at hbe)
  have h8 : bits ≤ 8 := hbe ▸ Nat.le_mul_of_pos_right bits he
  have hN : bits * i + bits ≤ 8 := by
    have h1 : bits * (i + 1) ≤ bits * e := Nat.mul_le_mul_left bits hi
    have h2 : bits * (i + 1) = bits * i + bits := by ring
    omega
  have hS : ofFields (2 ^ bits) fs < 2 ^ 8 := by
    calc ofFields (2 ^ bits) fs < (2 ^ bits) ^ fs.length :=
          ofFields_lt (2 ^ bits) fs hlt
      _ = 2 ^ (bits * fs.length) := (pow_mul 2 bits fs.length).symm
      _ = 2 ^ 8 := by rw [hlen, hbe]
  rw [unpack_cell_eq 8 bits i _ h8 hN]
  have hpat : toPattern 8 (int8wrap ((ofFields (2 ^ bits) fs : Nat) : Int))
      = ofFields (2 ^ bits) fs := by
    unfold toPattern
    rw [int8wrap_emod _ (le_refl 8),
      Int.emod_eq_of_lt (by positivity) (by exact_mod_cast hS)]
    simp
  rw [hpat, extractField_eq_div_mod, pow_mul,
    ofFields_extract (2 ^ bits) (by positivity) fs hlt i (by omega)]
  have hd : fs.getD i 0 ≤ 127 := by
    have hmem : fs.getD i 0 ∈ fs := by
      rw [List.getD_eq_getElem _ _ (by omega)]
      exact List.getElem_mem _
    exact h127 _ hmem
  exact int8wrap_eq_self (by omega) (by omega)

lemma unpack_pack_row (bits : Nat) (hdvd : bits ∣ 8)
    (row : List Int) (hdiv : (8 / bits) ∣ row.length)
    (hrange : ∀ v ∈ row, 0 ≤ v ∧ v < 2 ^ bits ∧ v ≤ 127) :
    unpack_qweight_row bits (pack_row bits row) = row := by
  have hbe : bits * (8 / bits) = 8 := Nat.mul_div_cancel' hdvd
  have he : 0 < 8 / bits := Nat.pos_of_ne_zero (by intro h; rw [h] at hbe; simp at hbe)
  obtain ⟨m, hm⟩ := hdiv
  have hplen : (pack_row bits row).length = m := by
    simp [pack_row, hm, Nat.mul_div_cancel_left m he]
  have hlen : (unpack_qweight_row bits (pack_row bits row)).length = row.length := by
    simp [unpack_qweight_row, hplen, hm, Nat.mul_comm]
  apply List.ext_getElem hlen
  intro col h1 h2
  have hcol : col < m * (8 / bits) := by
    rw [hm, Nat.mul_comm] at h2
    exact h2
  have hj : col / (8 / bits) < m := (Nat.div_lt_iff_lt_mul he).mpr hcol
  have hrowlen : row.length / (8 / bits) = m := by
    rw [hm, Nat.mul_div_cancel_left m he]
  simp only [unpack_qweight_row, List.getElem_map, List.getElem_range]
  have hgd : (pack_row bits row).getD (col / (8 / bits)) 0
      = int8wrap ((ofFields (2 ^ bits) (pack_chunk bits row (col / (8 / bits))) : Nat) : Int) := by
    unfold pack_row
    exact getD_map_range _ _ 0 _ (by rw [hrowlen]; exact hj)
  rw [hgd]
  have hchunk_mem : ∀ k, k < 8 / bits → col / (8 / bits) * (8 / bits) + k < row.length := by
    intro k hk
    have hj1 : col / (8 / bits) + 1 ≤ m := hj
    have h5 : (8 / bits) * (col / (8 / bits) + 1) ≤ (8 / bits) * m :=
      Nat.mul_le_mul_left (8 / bits) hj1
    have hexp : (8 / bits) * (col / (8 / bits) + 1)
        = (8 / bits) * (col / (8 / bits)) + (8 / bits) := by ring
    have hcomm : col / (8 / bits) * (8 / bits) = (8 / bits) * (col / (8 / bits)) :=
      Nat.mul_comm _ _
    omega
  have hcast : ((2 ^ bits : Nat) : Int) = (2 : Int) ^ bits := by push_cast; ring
  have hchunk_lt : ∀ f ∈ pack_chunk bits row (col / (8 / bits)), f < 2 ^ bits := by
    intro f hf
    simp only [pack_chunk, List.mem_map, List.mem_range] at hf
    obtain ⟨k, hk, rfl⟩ := hf
    have hidx := hchunk_mem k hk
    have hmem : row.getD (col / (8 / bits) * (8 / bits) + k) 0 ∈ row := by
      rw [List.getD_eq_getElem _ _ hidx]
      exact List.getElem_mem _
    have hr := hrange _ hmem
    omega
  have hchunk_127 : ∀ f ∈ pack_chunk bits row (col / (8 / bits)), f ≤ 127 := by
    intro f hf
    simp only [pack_chunk, List.mem_map, List.mem_range] at hf
    obtain ⟨k, hk, rfl⟩ := hf
    have hidx := hchunk_mem k hk
    have hmem : row.getD (col / (8 / bits) * (8 / bits) + k) 0 ∈ row := by
      rw [List.getD_eq_getElem _ _ hidx]
      exact List.getElem_mem _
    have hr := hrange _ hmem
    omega
  rw [unpack_cell_pack bits (8 / bits) hbe _ (by simp [pack_chunk]) hchunk_lt hchunk_127
    (col % (8 / bits)) (Nat.mod_lt _ he)]
  have hgd2 : (pack_chunk bits row (col / (8 / bits))).getD (col % (8 / bits)) 0
      = (row.getD (col / (8 / bits) * (8 / bits) + col % (8 / bits)) 0).toNat := by
    unfold pack_chunk
    exact getD_map_range _ _ 0 _ (Nat.mod_lt _ he)
  rw [hgd2]
  have hix : col / (8 / bits) * (8 / bits) + col % (8 / bits) = col := by
    have hdm := Nat.div_add_mod col (8 / bits)
    have hcomm : col / (8 / bits) * (8 / bits) = (8 / bits) * (col / (8 / bits)) :=
      Nat.mul_comm _ _
    omega
  rw [hix, List.getD_eq_getElem _ _ h2]
  exact Int.toNat_of_nonneg (hrange _ (List.getElem_mem _)).1

lemma map_eq_self_of_mem {α : Type} (f : α → α) (l : List α) (h : ∀ a ∈ l, f a = a) :
    l.map f = l := by
  induction l with
  | nil => rfl
  | cons a l ih =>
    simp only [List.map_cons]
    rw [h a (List.mem_cons_self a l), ih (fun b hb => h b (List.mem_cons_of_mem a hb))]

lemma getD_map_rows (f : List Int → List Int) (hf : f [] = []) (q : List (List Int)) (r : Nat) :
    (q.map f).getD r [] = f (q.getD r []) := by
  by_cases hr : r < q.length
  · rw [List.getD_eq_getElem _ _ (by simpa using hr), List.getD_eq_getElem _ _ hr,
      List.getElem_map]
  · push_neg at hr
    rw [List.getD_eq_default _ _ (by simpa using hr), List.getD_eq_default _ _ hr, hf]

lemma unpack_row_cell (N bits : Nat) (h8 : bits ≤ 8) (he : 0 < N / bits)
    (hbe : bits * (N / bits) = N) (row : List Int) (c : Nat)
    (hc : c < row.length * (N / bits)) :
    (((List.range (row.length * (N / bits))).map fun col =>
        unpack_cell bits (row.getD (col / (N / bits)) 0) (col % (N / bits))).getD c 0)
      = int8wrap ((extractField (toPattern N (row.getD (c / (N / bits)) 0)) bits
          (c % (N / bits)) : Nat) : Int) := by
  rw [getD_map_range _ _ 0 c hc]
  have hi : c % (N / bits) + 1 ≤ N / bits := Nat.mod_lt _ he
  have hN : bits * (c % (N / bits)) + bits ≤ N := by
    have h2 : bits * (c % (N / bits) + 1) ≤ bits * (N / bits) := Nat.mul_le_mul_left bits hi
    have h3 : bits * (c % (N / bits) + 1) = bits * (c % (N / bits)) + bits := by ring
    omega
  exact unpack_cell_eq N bits _ _ h8 hN

lemma unpack_qzeros_row_cell (bits : Nat) (h8 : bits ≤ 8) (h0 : 0 < bits)
    (he : 0 < 32 / bits) (hbe : bits * (32 / bits) = 32) (row : List Int) (c : Nat)
    (hc : c < row.length * (32 / bits)) :
    (unpack_qzeros_row bits row).getD c 0
      = int8wrap ((((extractField (toPattern 32 (row.getD (c / (32 / bits)) 0)) bits
          (c % (32 / bits)) : Nat) : Int) + 1) % 2 ^ bits) := by
  unfold unpack_qzeros_row
  rw [getD_map_range _ _ 0 c hc]
  have hi : c % (32 / bits) + 1 ≤ 32 / bits := Nat.mod_lt _ he
  have hN : bits * (c % (32 / bits)) + bits ≤ 32 := by
    have h2 : bits * (c % (32 / bits) + 1) ≤ bits * (32 / bits) := Nat.mul_le_mul_left bits hi
    have h3 : bits * (c % (32 / bits) + 1) = bits * (c % (32 / bits)) + bits := by ring
    omega
  exact unpack_qzeros_cell_eq bits _ _ h8 h0 hN

lemma int8wrap_cast_of_lt_128 {v : Nat} (hv : v < 128) :
    int8wrap ((v : Nat) : Int) = ((v : Nat) : Int) :=
  int8wrap_eq_self (by omega) (by omega)

/-- C1 (amended): for every bit-width `b ∈ {1,2,4,8}` and every 2-D integer
array `x` whose rows' lengths are divisible by the packing ratio `8 / b` and
whose elements lie in `[0, 2^b)` and additionally fit the signed `int8` output
dtype (`≤ 127` — only restrictive for `b = 8`), unpacking the result of
packing `x` at bit-width `b` returns `x`. -/
theorem unpack_pack_roundtrip (bits : Nat)
    (hbits : bits = 1 ∨ bits = 2 ∨ bits = 4 ∨ bits = 8)
    (x : List (List Int))
    (hdiv : ∀ row ∈ x, (8 / bits) ∣ row.length)
    (hrange : ∀ row ∈ x, ∀ v ∈ row, 0 ≤ v ∧ v < 2 ^ bits ∧ v ≤ 127) :
    unpack_qweight (general_compress x bits) bits = x := by
  have hdvd : bits ∣ 8 := by rcases hbits with rfl | rfl | rfl | rfl <;> decide
  unfold unpack_qweight general_compress
  rw [List.map_map]
  exact map_eq_self_of_mem _ x
    (fun row hr => unpack_pack_row bits hdvd row (hdiv row hr) (hrange row hr))

/-- C1 counterexample: at bit-width 8 the element 128 lies in `[0, 2^8)`, the
single-column row is exactly divisible, yet the `int8` output dtype of
`unpack_qweight` yields the signed value `-128`, so
`unpack(pack([[128]], 8), 8) = [[-128]] ≠ [[128]]`. -/
theorem unpack_pack_int8_overflow :
    unpack_qweight (general_compress [[(128 : Int)]] 8) 8 = [[-128]]
      ∧ (0 : Int) ≤ 128 ∧ (128 : Int) < 2 ^ 8
      ∧ unpack_qweight (general_compress [[(128 : Int)]] 8) 8 ≠ [[(128 : Int)]] := by
  refine ⟨by decide, by decide, by decide, by decide⟩

theorem unpack_pack_roundtrip_witness :
    unpack_qweight (general_compress [[(3 : Int), 5]] 4) 4 = [[(3 : Int), 5]] :=
  unpack_pack_roundtrip 4 (by decide) [[(3 : Int), 5]] (by decide) (by decide)

/-- C3 (amended): for every packed input of `N`-bit storage units (`N = 8` for
weights via `unpack_qweight`, `N = 32` for zero-points via the uncorrected
`unpack_qzeros_v2`) and every bit-width `b` dividing 8 (equivalently, a width
in `{1,2,4,8}`, the widths that fit the `int8` output dtype), output column
`c` equals the logical (unsigned) extraction
`(unit >> (b*i)) & (2^b - 1)` of sub-field `i = c % (N/b)` of storage unit
`c // (N/b)` — reduced into the signed `int8` output range by `int8wrap`.
For `b < 8` the `int8wrap` is the identity, so the cell is exactly the
unsigned extraction and lies in `[0, 2^b)` with no sign extension, even when
the storage unit's value is negative in two's complement. -/
theorem unpack_field_extraction (bits : Nat) (hdvd : bits ∣ 8)
    (q : List (List Int)) (r c : Nat) :
    (c < (q.getD r []).length * (8 / bits) →
      ((unpack_qweight q bits).getD r []).getD c 0
        = int8wrap ((extractField (toPattern 8 ((q.getD r []).getD (c / (8 / bits)) 0))
            bits (c % (8 / bits)) : Nat) : Int)
      ∧ (bits < 8 →
          ((unpack_qweight q bits).getD r []).getD c 0
            = ((extractField (toPattern 8 ((q.getD r []).getD (c / (8 / bits)) 0))
                bits (c % (8 / bits)) : Nat) : Int)
          ∧ 0 ≤ ((unpack_qweight q bits).getD r []).getD c 0
          ∧ ((unpack_qweight q bits).getD r []).getD c 0 < 2 ^ bits))
    ∧ (c < (q.getD r []).length * (32 / bits) →
      ((unpack_qzeros_v2 q bits).getD r []).getD c 0
        = int8wrap ((extractField (toPattern 32 ((q.getD r []).getD (c / (32 / bits)) 0))
            bits (c % (32 / bits)) : Nat) : Int)
      ∧ (bits < 8 →
          ((unpack_qzeros_v2 q bits).getD r []).getD c 0
            = ((extractField (toPattern 32 ((q.getD r []).getD (c / (32 / bits)) 0))
                bits (c % (32 / bits)) : Nat) : Int)
          ∧ 0 ≤ ((unpack_qzeros_v2 q bits).getD r []).getD c 0
          ∧ ((unpack_qzeros_v2 q bits).getD r []).getD c 0 < 2 ^ bits)) := by
  have h0 : 0 < bits := Nat.pos_of_ne_zero (by rintro rfl; exact absurd hdvd (by decide))
  have h8 : bits ≤ 8 := Nat.le_of_dvd (by norm_num) hdvd
  have hbe8 : bits * (8 / bits) = 8 := Nat.mul_div_cancel' hdvd
  have hdvd32 : bits ∣ 32 := dvd_trans hdvd (by norm_num)
  have hbe32 : bits * (32 / bits) = 32 := Nat.mul_div_cancel' hdvd32
  have he8 : 0 < 8 / bits := Nat.pos_of_ne_zero (by intro h; rw [h] at hbe8; simp at hbe8)
  have he32 : 0 < 32 / bits :=
    Nat.pos_of_ne_zero (by intro h; rw [h] at hbe32; simp at hbe32)
  have hvlt : ∀ m : Nat, bits < 8 → m < 2 ^ bits → ((m : Nat) : Int) < 2 ^ bits := by
    intro m hblt hm
    have hc : ((2 ^ bits : Nat) : Int) = (2 : Int) ^ bits := by push_cast; ring
    omega
  have hlt128 : ∀ m : Nat, bits < 8 → m < 2 ^ bits → m < 128 := by
    intro m hblt hm
    have h27 : (2 : Nat) ^ bits ≤ 2 ^ 7 := Nat.pow_le_pow_right (by norm_num) (by omega)
    have h128 : (2 : Nat) ^ 7 = 128 := by norm_num
    omega
  constructor
  · intro hc
    have hrow : (unpack_qweight q bits).getD r [] = unpack_qweight_row bits (q.getD r []) := by
      unfold unpack_qweight
      exact getD_map_rows _ (by simp [unpack_qweight_row]) q r
    have hcell := unpack_row_cell 8 bits h8 he8 hbe8 (q.getD r []) c hc
    rw [hrow]
    have hcell' : (unpack_qweight_row bits (q.getD r [])).getD c 0
        = int8wrap ((extractField (toPattern 8 ((q.getD r []).getD (c / (8 / bits)) 0))
            bits (c % (8 / bits)) : Nat) : Int) := hcell
    refine ⟨hcell', fun hblt => ?_⟩
    have hfl := extractField_lt (toPattern 8 ((q.getD r []).getD (c / (8 / bits)) 0)) bits
      (c % (8 / bits))
    have hwrap := int8wrap_cast_of_lt_128 (hlt128 _ hblt hfl)
    refine ⟨hcell'.trans hwrap, ?_, ?_⟩
    · rw [hcell', hwrap]
      positivity
    · rw [hcell', hwrap]
      exact hvlt _ hblt hfl
  · intro hc
    have hrow : (unpack_qzeros_v2 q bits).getD r []
        = unpack_qzeros_v2_row bits (q.getD r []) := by
      unfold unpack_qzeros_v2
      exact getD_map_rows _ (by simp [unpack_qzeros_v2_row]) q r
    have hcell := unpack_row_cell 32 bits h8 he32 hbe32 (q.getD r []) c hc
    rw [hrow]
    have hcell' : (unpack_qzeros_v2_row bits (q.getD r [])).getD c 0
        = int8wrap ((extractField (toPattern 32 ((q.getD r []).getD (c / (32 / bits)) 0))
            bits (c % (32 / bits)) : Nat) : Int) := hcell
    refine ⟨hcell', fun hblt => ?_⟩
    have hfl := extractField_lt (toPattern 32 ((q.getD r []).getD (c / (32 / bits)) 0)) bits
      (c % (32 / bits))
    have hwrap := int8wrap_cast_of_lt_128 (hlt128 _ hblt hfl)
    refine ⟨hcell'.trans hwrap, ?_, ?_⟩
    · rw [hcell', hwrap]
      positivity
    · rw [hcell', hwrap]
      exact hvlt _ hblt hfl

/-- C3 counterexample: at bit-width 8 an `int8` storage unit with value `-1`
(bit pattern `0xFF`) has unsigned extraction 255, but `unpack_qweight` returns
the signed `int8` value `-1`, which is negative and differs from the claimed
unsigned result in `[0, 2^8)`. -/
theorem unpack_cell_bits8_sign_view :
    unpack_qweight [[(-1 : Int)]] 8 = [[-1]]
      ∧ extractField (toPattern 8 (-1)) 8 0 = 255
      ∧ ¬ (0 : Int) ≤ ((unpack_qweight [[(-1 : Int)]] 8).getD 0 []).getD 0 0
      ∧ ((unpack_qweight [[(-1 : Int)]] 8).getD 0 []).getD 0 0
          ≠ ((extractField (toPattern 8 (-1)) 8 0 : Nat) : Int) := by
  refine ⟨by decide, by decide, by decide, by decide⟩

theorem unpack_field_extraction_witness :
    ((unpack_qweight [[(-3 : Int)]] 4).getD 0 []).getD 0 0 = 13
      ∧ ((unpack_qweight [[(-3 : Int)]] 4).getD 0 []).getD 1 0 = 15 :=
  ⟨((((unpack_field_extraction 4 (by decide) [[(-3 : Int)]] 0 0).1 (by decide)).2
      (by decide)).1).trans (by decide),
    ((((unpack_field_extraction 4 (by decide) [[(-3 : Int)]] 0 1).1 (by decide)).2
      (by decide)).1).trans (by decide)⟩

/-- C2 (amended): for every packed zero-point array and every bit-width
`b ∈ {1,2,4,8}` (the divisors of 8), the corrected variant `unpack_qzeros`
returns, for each field, `(field + 1) mod 2^b` reduced into the signed `int8`
output range by `int8wrap`, and `unpack_qzeros_v2` returns the raw field value
so reduced.  For `b ≤ 4` the reduction is the identity, so the corrected
variant returns exactly `(field + 1) & (2^b - 1)` — wrapping a raw field of
`2^b - 1` to 0 — and the v2 variant returns the raw field unchanged, as
claimed; for `b = 8` the `int8` output dtype returns values that are only
pattern-equal (mod 256) to the claimed ones. -/
theorem unpack_qzeros_correction (bits : Nat) (hdvd : bits ∣ 8)
    (q : List (List Int)) (r c : Nat)
    (hc : c < (q.getD r []).length * (32 / bits)) :
    ((unpack_qzeros q bits).getD r []).getD c 0
      = int8wrap ((((extractField (toPattern 32 ((q.getD r []).getD (c / (32 / bits)) 0))
          bits (c % (32 / bits)) : Nat) : Int) + 1) % 2 ^ bits)
    ∧ ((unpack_qzeros_v2 q bits).getD r []).getD c 0
      = int8wrap ((extractField (toPattern 32 ((q.getD r []).getD (c / (32 / bits)) 0))
          bits (c % (32 / bits)) : Nat) : Int)
    ∧ (bits ≤ 4 →
        ((unpack_qzeros q bits).getD r []).getD c 0
          = (((extractField (toPattern 32 ((q.getD r []).getD (c / (32 / bits)) 0))
              bits (c % (32 / bits)) + 1) % 2 ^ bits : Nat) : Int)
        ∧ ((unpack_qzeros_v2 q bits).getD r []).getD c 0
          = ((extractField (toPattern 32 ((q.getD r []).getD (c / (32 / bits)) 0))
              bits (c % (32 / bits)) : Nat) : Int)) := by
  have h0 : 0 < bits := Nat.pos_of_ne_zero (by rintro rfl; exact absurd hdvd (by decide))
  have h8 : bits ≤ 8 := Nat.le_of_dvd (by norm_num) hdvd
  have hdvd32 : bits ∣ 32 := dvd_trans hdvd (by norm_num)
  have hbe32 : bits * (32 / bits) = 32 := Nat.mul_div_cancel' hdvd32
  have he32 : 0 < 32 / bits :=
    Nat.pos_of_ne_zero (by intro h; rw [h] at hbe32; simp at hbe32)
  have hrowz : (unpack_qzeros q bits).getD r [] = unpack_qzeros_row bits (q.getD r []) := by
    unfold unpack_qzeros
    exact getD_map_rows _ (by simp [unpack_qzeros_row]) q r
  have hrowv : (unpack_qzeros_v2 q bits).getD r []
      = unpack_qzeros_v2_row bits (q.getD r []) := by
    unfold unpack_qzeros_v2
    exact getD_map_rows _ (by simp [unpack_qzeros_v2_row]) q r
  have hcellz := unpack_qzeros_row_cell bits h8 h0 he32 hbe32 (q.getD r []) c hc
  have hcellv := unpack_row_cell 32 bits h8 he32 hbe32 (q.getD r []) c hc
  have hcellv' : (unpack_qzeros_v2_row bits (q.getD r [])).getD c 0
      = int8wrap ((extractField (toPattern 32 ((q.getD r []).getD (c / (32 / bits)) 0))
          bits (c % (32 / bits)) : Nat) : Int) := hcellv
  rw [hrowz, hrowv]
  refine ⟨hcellz, hcellv', fun hble => ?_⟩
  have hfl := extractField_lt (toPattern 32 ((q.getD r []).getD (c / (32 / bits)) 0)) bits
    (c % (32 / bits))
  have h16 : (2 : Nat) ^ bits ≤ 2 ^ 4 := Nat.pow_le_pow_right (by norm_num) hble
  have h16' : (2 : Nat) ^ 4 = 16 := by norm_num
  have hmod : (extractField (toPattern 32 ((q.getD r []).getD (c / (32 / bits)) 0))
      bits (c % (32 / bits)) + 1) % 2 ^ bits < 2 ^ bits :=
    Nat.mod_lt _ (by positivity)
  constructor
  · rw [hcellz]
    have hcast : (((extractField (toPattern 32 ((q.getD r []).getD (c / (32 / bits)) 0))
        bits (c % (32 / bits)) + 1) % 2 ^ bits : Nat) : Int)
          = (((extractField (toPattern 32 ((q.getD r []).getD (c / (32 / bits)) 0))
            bits (c % (32 / bits)) : Nat) : Int) + 1) % 2 ^ bits := by
      push_cast
      ring
    rw [← hcast]
    exact int8wrap_cast_of_lt_128 (by omega)
  · rw [hcellv']
    exact int8wrap_cast_of_lt_128 (by omega)

/-- C2 counterexample: at bit-width 8 a raw field value of 200 (storage unit
`200`, field 0) should yield `(200 + 1) & 255 = 201` per the claim, and the v2
variant should yield 200 unchanged; but the `int8` output dtype of both
variants returns the signed values `-55` and `-56` instead. -/
theorem unpack_qzeros_bits8_signed :
    unpack_qzeros [[(200 : Int)]] 8 = [[-55, 1, 1, 1]]
      ∧ unpack_qzeros_v2 [[(200 : Int)]] 8 = [[-56, 0, 0, 0]]
      ∧ extractField (toPattern 32 200) 8 0 = 200
      ∧ ((unpack_qzeros [[(200 : Int)]] 8).getD 0 []).getD 0 0
          ≠ (((200 + 1) % 2 ^ 8 : Nat) : Int)
      ∧ ((unpack_qzeros_v2 [[(200 : Int)]] 8).getD 0 []).getD 0 0 ≠ (200 : Int) := by
  refine ⟨by decide, by decide, by decide, by decide, by decide⟩

theorem unpack_qzeros_correction_witness :
    ((unpack_qzeros [[(15 : Int)]] 4).getD 0 []).getD 0 0 = 0
      ∧ ((unpack_qzeros_v2 [[(15 : Int)]] 4).getD 0 []).getD 0 0 = 15 :=
  ⟨(((unpack_qzeros_correction 4 (by decide) [[(15 : Int)]] 0 0 (by decide)).2.2
      (by decide)).1).trans (by decide),
    (((unpack_qzeros_correction 4 (by decide) [[(15 : Int)]] 0 0 (by decide)).2.2
      (by decide)).2).trans (by decide)⟩

inductive DType
  | float16
  | float32
  | int8
  | int32
deriving DecidableEq

/-- A numeric tensor: a dtype tag plus exact rational entries.  `.to(dtype)`
casts preserve the numeric value (float rounding is not modelled; the data in
every theorem below is integer-valued and exactly representable). -/
structure TMat where
  dtype : DType
  data : List (List ℚ)
deriving DecidableEq

/-- Tensor transpose `.T` on a rectangular 2-D list (`contiguous()` is a layout
no-op in this model); `d` is the padding default, never read on rectangular
inputs. -/
def transposeD {α : Type} (d : α) (m : List (List α)) : List (List α) :=
  (List.range ((m.headD []).length)).map fun j => m.map fun row => row.getD j d

/-- Reinterpretation `.view(torch.int8)` of an `int32` tensor: every 32-bit unit splits into
its four little-endian bytes, each reinterpreted as a signed `int8` value. -/
def int32ToBytes (v : Int) : List Int :=
  (List.range 4).map fun k => int8wrap (Int.fdiv v (2 ^ (8 * k)))

def viewInt32AsInt8 (m : List (List Int)) : List (List Int) :=
  m.map fun row => row.flatMap int32ToBytes

/-- Cast `.to(dtype)`: value-preserving conversion to another numeric dtype. -/
def castTo (d : DType) (t : TMat) : TMat := { dtype := d, data := t.data }

/-- Reinterpretation `.view(dtype)` on a floating tensor: bit-level view.  It is
modelled as identity on the stored values; the theorems below exercise it only
where source and target dtypes coincide or where the reinterpreted values are
irrelevant to the stated property. -/
def viewAs (d : DType) (t : TMat) : TMat := { dtype := d, data := t.data }

def tmatTranspose (t : TMat) : TMat := { dtype := t.dtype, data := transposeD 0 t.data }

def intMatToRat (m : List (List Int)) : List (List ℚ) :=
  m.map fun row => row.map fun v => (v : ℚ)

/-- Elementwise product of two same-shaped matrices
(`a[:, :] * b[:, :]`). -/
def elemMul (a b : List (List ℚ)) : List (List ℚ) :=
  a.zipWith (fun ra rb => ra.zipWith (fun x y => x * y) rb) b

def dims {α : Type} (m : List (List α)) : List Nat := m.map List.length

/-- The foreign GPTQ quantized-linear module's buffers: `qweight` packed in
`int32` storage units, `scales` a floating tensor, `qzeros` packed zero-points
in `int32` units, optional `bias`; shapes follow the external (transposed)
convention. -/
structure GptqModule where
  qweight : List (List Int)
  scales : TMat
  qzeros : List (List Int)
  bias : Option TMat

/-- The buffer and configuration state of a quantized-mode `Linear` layer that
the repack paths read and write: `torch_dtype = getattr(torch, A_dtype)`,
`bits` and the optional `weight_transform` come from the resolved operator
handle, `zeros_mode` from its config. -/
structure LinearState where
  torch_dtype : DType
  bits : Nat
  weight_transform : Option (List (List Int) → List (List Int))
  zeros_mode : String
  qweight : List (List Int)
  scales : TMat
  zeros : TMat
  bias : Option TMat

/-- The trailing bias step shared by both repack paths:
`if self.bias is not None: self.bias = gptq_module.bias.data.to(torch.float16)`
(the model assumes the foreign module carries a bias whenever the layer does). -/
def finish_bias (st : LinearState) (g : GptqModule) : LinearState :=
  match st.bias with
  | none => st
  | some _ => { st with bias := g.bias.map (castTo DType.float16) }

/-- Source method `Linear.repack_from_gptq(gptq_module)`.  Statements execute in source
order; the second component is the message of the raised `ValueError`, if any,
and the returned state keeps every mutation performed before the raise
(Python attribute assignments persist when a later statement raises).  Device
moves (`.cpu()`, `.to(device)`, `.contiguous()`) are identities here. -/
def repack_from_gptq (st : LinearState) (g : GptqModule) : LinearState × Option String :=
  let qweight0 := viewInt32AsInt8 (transposeD 0 g.qweight)
  let intweight := unpack_qweight qweight0 st.bits
  let qweight1 := match st.weight_transform with
    | some f => f intweight
    | none => qweight0
  let st1 := { st with qweight := qweight1 }
  let st2 := { st1 with scales := viewAs st.torch_dtype (tmatTranspose g.scales) }
  let intzeros := transposeD 0 (unpack_qzeros g.qzeros st.bits)
  if st.zeros_mode = "original" then
    (finish_bias { st2 with
      zeros := { dtype := DType.float16, data := intMatToRat intzeros } } g, none)
  else if st.zeros_mode = "rescale" then
    (finish_bias { st2 with
      zeros := { dtype := st2.zeros.dtype,
                 data := elemMul (intMatToRat intzeros) st2.scales.data } } g, none)
  else if st.zeros_mode = "quantized" then
    (finish_bias { st2 with
      zeros := { dtype := st2.zeros.dtype,
                 data := intMatToRat (general_compress (transposeD 0 intzeros) st.bits) } } g,
      none)
  else
    (st2, some ("Unsupported zeros type: " ++ st.zeros_mode))

/-- Source method `Linear.repack_from_gptq_v2(gptq_module)`: as `repack_from_gptq` but the
zero-points are decoded with the uncorrected `unpack_qzeros_v2`. -/
def repack_from_gptq_v2 (st : LinearState) (g : GptqModule) : LinearState × Option String :=
  let qweight0 := viewInt32AsInt8 (transposeD 0 g.qweight)
  let intweight := unpack_qweight qweight0 st.bits
  let qweight1 := match st.weight_transform with
    | some f => f intweight
    | none => qweight0
  let st1 := { st with qweight := qweight1 }
  let st2 := { st1 with scales := viewAs st.torch_dtype (tmatTranspose g.scales) }
  let intzeros := transposeD 0 (unpack_qzeros_v2 g.qzeros st.bits)
  if st.zeros_mode = "original" then
    (finish_bias { st2 with
      zeros := { dtype := DType.float16, data := intMatToRat intzeros } } g, none)
  else if st.zeros_mode = "rescale" then
    (finish_bias { st2 with
      zeros := { dtype := st2.zeros.dtype,
                 data := elemMul (intMatToRat intzeros) st2.scales.data } } g, none)
  else if st.zeros_mode = "quantized" then
    (finish_bias { st2 with
      zeros := { dtype := st2.zeros.dtype,
                 data := intMatToRat (general_compress (transposeD 0 intzeros) st.bits) } } g,
      none)
  else
    (st2, some ("Unsupported zeros type: " ++ st.zeros_mode))

/-- C5 (amended): for every `zeros_mode` other than original/rescale/quantized,
both repack paths raise a `ValueError` whose message names the offending mode
string, and leave the `zeros` and `bias` buffers unchanged — but the `qweight`
and `scales` buffers have already been overwritten before the error is raised
(`scales` now holds the foreign module's transposed scales). -/
theorem repack_bad_mode_error (st : LinearState) (g : GptqModule)
    (h1 : st.zeros_mode ≠ "original") (h2 : st.zeros_mode ≠ "rescale")
    (h3 : st.zeros_mode ≠ "quantized") :
    (repack_from_gptq st g).2 = some ("Unsupported zeros type: " ++ st.zeros_mode)
    ∧ (repack_from_gptq st g).1.zeros = st.zeros
    ∧ (repack_from_gptq st g).1.bias = st.bias
    ∧ (repack_from_gptq st g).1.scales = viewAs st.torch_dtype (tmatTranspose g.scales)
    ∧ (repack_from_gptq_v2 st g).2 = some ("Unsupported zeros type: " ++ st.zeros_mode)
    ∧ (repack_from_gptq_v2 st g).1.zeros = st.zeros
    ∧ (repack_from_gptq_v2 st g).1.bias = st.bias := by
  simp [repack_from_gptq, repack_from_gptq_v2, h1, h2, h3]

def badModeLayer : LinearState :=
  { torch_dtype := DType.float16, bits := 4, weight_transform := none,
    zeros_mode := "bogus", qweight := [[0]],
    scales := { dtype := DType.float16, data := [[1]] },
    zeros := { dtype := DType.float16, data := [[0]] },
    bias := none }

def badModeGptq : GptqModule :=
  { qweight := [[257]], scales := { dtype := DType.float16, data := [[7]] },
    qzeros := [[0]], bias := none }

/-- C5 counterexample: with `zeros_mode = "bogus"` the repack raises the error
naming the mode, but the layer's buffers are NOT all left unchanged: `qweight`
and `scales` were already overwritten when the error was raised. -/
theorem repack_bad_mode_mutates :
    (repack_from_gptq badModeLayer badModeGptq).2
        = some ("Unsupported zeros type: " ++ "bogus")
    ∧ (repack_from_gptq badModeLayer badModeGptq).1.qweight ≠ badModeLayer.qweight
    ∧ (repack_from_gptq badModeLayer badModeGptq).1.scales ≠ badModeLayer.scales := by
  refine ⟨by decide, by decide, by decide⟩

theorem repack_bad_mode_error_witness :
    (repack_from_gptq badModeLayer badModeGptq).2
        = some ("Unsupported zeros type: " ++ badModeLayer.zeros_mode)
    ∧ (repack_from_gptq badModeLayer badModeGptq).1.zeros = badModeLayer.zeros
    ∧ (repack_from_gptq badModeLayer badModeGptq).1.bias = badModeLayer.bias
    ∧ (repack_from_gptq badModeLayer badModeGptq).1.scales
        = viewAs badModeLayer.torch_dtype (tmatTranspose badModeGptq.scales)
    ∧ (repack_from_gptq_v2 badModeLayer badModeGptq).2
        = some ("Unsupported zeros type: " ++ badModeLayer.zeros_mode)
    ∧ (repack_from_gptq_v2 badModeLayer badModeGptq).1.zeros = badModeLayer.zeros
    ∧ (repack_from_gptq_v2 badModeLayer badModeGptq).1.bias = badModeLayer.bias :=
  repack_bad_mode_error badModeLayer badModeGptq (by decide) (by decide) (by decide)

/-- C6 (amended): in `original` mode the repack stores the decoded integer
zero-points, but cast to the hardcoded `torch.float16` rather than to the
dtype derived from `A_dtype`: the stored dtype equals the layer's activation
dtype exactly when `A_dtype` is float16.  A bias supplied through repack is
likewise cast to hardcoded `float16`. -/
theorem repack_original_stores (st : LinearState) (g : GptqModule)
    (hmode : st.zeros_mode = "original") :
    (repack_from_gptq st g).1.zeros
      = { dtype := DType.float16,
          data := intMatToRat (transposeD 0 (unpack_qzeros g.qzeros st.bits)) }
    ∧ ((repack_from_gptq st g).1.zeros.dtype = st.torch_dtype
        ↔ st.torch_dtype = DType.float16)
    ∧ (st.bias.isSome →
        (repack_from_gptq st g).1.bias = g.bias.map (castTo DType.float16)) := by
  cases hb : st.bias with
  | none =>
    simp [repack_from_gptq, hmode, finish_bias, hb, eq_comm]
  | some b =>
    simp [repack_from_gptq, hmode, finish_bias, hb, eq_comm]

def origModeLayer : LinearState :=
  { torch_dtype := DType.float32, bits := 4, weight_transform := none,
    zeros_mode := "original", qweight := [[0]],
    scales := { dtype := DType.float32, data := [[1]] },
    zeros := { dtype := DType.float32, data := [[0]] },
    bias := none }

def origModeGptq : GptqModule :=
  { qweight := [[0]], scales := { dtype := DType.float32, data := [[1]] },
    qzeros := [[0]], bias := none }

/-- C6 counterexample: a layer configured with activation dtype float32
(`A_dtype = "float32"`) repacks in `original` mode, yet the stored zero buffer
has dtype float16, not the layer's activation dtype. -/
theorem repack_original_float16_hardcoded :
    origModeLayer.torch_dtype = DType.float32
    ∧ (repack_from_gptq origModeLayer origModeGptq).1.zeros.dtype = DType.float16
    ∧ (repack_from_gptq origModeLayer origModeGptq).1.zeros.dtype
        ≠ origModeLayer.torch_dtype := by
  refine ⟨by decide, by decide, by decide⟩

theorem repack_original_stores_witness :
    (repack_from_gptq origModeLayer origModeGptq).1.zeros
      = { dtype := DType.float16,
          data := intMatToRat (transposeD 0
            (unpack_qzeros origModeGptq.qzeros origModeLayer.bits)) }
    ∧ ((repack_from_gptq origModeLayer origModeGptq).1.zeros.dtype
          = origModeLayer.torch_dtype
        ↔ origModeLayer.torch_dtype = DType.float16)
    ∧ (origModeLayer.bias.isSome →
        (repack_from_gptq origModeLayer origModeGptq).1.bias
          = origModeGptq.bias.map (castTo DType.float16)) :=
  repack_original_stores origModeLayer origModeGptq rfl

/-- C7: in `rescale` mode, after repacking, the stored zero buffer's data is
the elementwise product of the decoded integer zero-points (cast to the
numeric carrier) and the already-loaded scales buffer (the foreign module's
transposed scales, stored two statements earlier) of identical shape; in
particular the elementwise product of decoded zeros `[[2]]` with scales
`[[3]]` is `[[6]]`. -/
theorem repack_rescale_product (st : LinearState) (g : GptqModule)
    (hmode : st.zeros_mode = "rescale")
    (_hshape : dims (transposeD 0 (unpack_qzeros g.qzeros st.bits))
        = dims (transposeD (0 : ℚ) g.scales.data)) :
    (repack_from_gptq st g).1.zeros.data
      = elemMul (intMatToRat (transposeD 0 (unpack_qzeros g.qzeros st.bits)))
          ((repack_from_gptq st g).1.scales.data)
    ∧ elemMul [[(2 : ℚ)]] [[(3 : ℚ)]] = [[(6 : ℚ)]] := by
  constructor
  · cases hb : st.bias with
    | none => simp [repack_from_gptq, hmode, finish_bias, hb, viewAs, tmatTranspose]
    | some b => simp [repack_from_gptq, hmode, finish_bias, hb, viewAs, tmatTranspose]
  · norm_num [elemMul]

def rescaleLayer : LinearState :=
  { torch_dtype := DType.float16, bits := 8, weight_transform := none,
    zeros_mode := "rescale", qweight := [[0]],
    scales := { dtype := DType.float16, data := [[0], [0], [0], [0]] },
    zeros := { dtype := DType.float16, data := [[0], [0], [0], [0]] },
    bias := none }

def rescaleGptq : GptqModule :=
  { qweight := [[0]], scales := { dtype := DType.float16, data := [[3, 3, 3, 3]] },
    qzeros := [[16843009]], bias := none }

theorem repack_rescale_product_witness :
    (repack_from_gptq rescaleLayer rescaleGptq).1.zeros.data
        = [[(6 : ℚ)], [6], [6], [6]]
    ∧ elemMul [[(2 : ℚ)]] [[(3 : ℚ)]] = [[(6 : ℚ)]] := by
  have h := repack_rescale_product rescaleLayer rescaleGptq rfl (by decide)
  refine ⟨h.1.trans ?_, h.2⟩
  have hz : transposeD 0 (unpack_qzeros rescaleGptq.qzeros rescaleLayer.bits)
      = [[2], [2], [2], [2]] := by decide
  have hs : (repack_from_gptq rescaleLayer rescaleGptq).1.scales.data
      = [[(3 : ℚ)], [3], [3], [3]] := by decide
  rw [hz, hs]
  norm_num [elemMul, intMatToRat]

/-- A compiled operator handle: an opaque identity plus whether
`hardware_aware_finetune` has been run on it; `Matmul(config, target,
enable_tuning=False)` constructs it untuned. -/
structure OpHandle where
  hid : Nat
  tuned : Bool
deriving DecidableEq

/-- The operator cache plus instrumentation for the temporal claims:
`entries` is the keyed collection, `tunes` counts tuning runs, `saves` counts
`save_into_database` calls, `fresh` supplies identities for newly constructed
handles. -/
structure OpCacheState where
  entries : List (Nat × OpHandle)
  tunes : Nat
  saves : Nat
  fresh : Nat
deriving DecidableEq

/-- Lookup `operator_cache.get(config)`: pure lookup by config key (configs are
modelled by their keys; two configs are equal iff every field is equal, so a
key models the whole structural signature). -/
def cache_get (entries : List (Nat × OpHandle)) (config : Nat) : Option OpHandle :=
  (entries.find? fun p => p.1 == config).map Prod.snd

/-- Source method `Linear._get_or_create_bitblas_operator(config, enable_tuning)`: when the
cache is empty it is first hydrated from the persisted store `db`
(`load_from_database`); a hit returns the cached handle unchanged; a miss
constructs a handle with tuning disabled and, only when `enable_tuning` is
set, tunes it (`hardware_aware_finetune(topk=20)`), adds it to the cache and
saves the cache into the database. -/
def get_or_create (st : OpCacheState) (db : List (Nat × OpHandle)) (config : Nat)
    (enable_tuning : Bool) : OpHandle × OpCacheState :=
  let entries := if st.entries.length = 0 then db else st.entries
  let st0 : OpCacheState := { st with entries := entries }
  match cache_get entries config with
  | some h => (h, st0)
  | none =>
    let h0 : OpHandle := { hid := st0.fresh, tuned := false }
    if enable_tuning then
      let h1 : OpHandle := { h0 with tuned := true }
      (h1, { st0 with entries := st0.entries ++ [(config, h1)],
                      tunes := st0.tunes + 1, saves := st0.saves + 1,
                      fresh := st0.fresh + 1 })
    else
      (h0, { st0 with fresh := st0.fresh + 1 })

lemma cache_get_append_self (l : List (Nat × OpHandle)) (c : Nat) (h : OpHandle)
    (hl : cache_get l c = none) : cache_get (l ++ [(c, h)]) c = some h := by
  unfold cache_get at hl ⊢
  rw [List.find?_append]
  cases hfind : l.find? fun p => p.1 == c with
  | some p => rw [hfind] at hl; simp at hl
  | none => simp

/-- C9: hardware-aware tuning runs at most once per signature.  On a hit the
cached handle is returned unchanged and tuning is not re-run even with
`enable_tuning = true`; starting from a miss, two calls with the identical
config and `enable_tuning = true` both times trigger tuning exactly once, and
the second call returns the identical handle and state. -/
theorem tuning_at_most_once (st : OpCacheState) (db : List (Nat × OpHandle))
    (config : Nat) :
    (∀ h, cache_get (if st.entries.length = 0 then db else st.entries) config = some h →
      (get_or_create st db config true).1 = h
      ∧ (get_or_create st db config true).2.tunes = st.tunes
      ∧ (get_or_create st db config true).2.entries
          = (if st.entries.length = 0 then db else st.entries))
    ∧ (cache_get (if st.entries.length = 0 then db else st.entries) config = none →
      (get_or_create (get_or_create st db config true).2 db config true).1
          = (get_or_create st db config true).1
      ∧ (get_or_create (get_or_create st db config true).2 db config true).2
          = (get_or_create st db config true).2
      ∧ (get_or_create st db config true).2.tunes = st.tunes + 1
      ∧ (get_or_create (get_or_create st db config true).2 db config true).2.tunes
          = st.tunes + 1) := by
  constructor
  · intro h hh
    have hh' : cache_get (if st.entries = [] then db else st.entries) config = some h := by
      simpa using hh
    simp [get_or_create, hh']
  · intro hn
    have hn' : cache_get (if st.entries = [] then db else st.entries) config = none := by
      simpa using hn
    have h1 : get_or_create st db config true
        = ({ hid := st.fresh, tuned := true },
           { entries := (if st.entries = [] then db else st.entries)
                ++ [(config, { hid := st.fresh, tuned := true })],
             tunes := st.tunes + 1, saves := st.saves + 1, fresh := st.fresh + 1 }) := by
      simp [get_or_create, hn']
    have hget := cache_get_append_self
      (if st.entries = [] then db else st.entries) config
      { hid := st.fresh, tuned := true } hn'
    have h2 : get_or_create (get_or_create st db config true).2 db config true
        = ({ hid := st.fresh, tuned := true }, (get_or_create st db config true).2) := by
      rw [h1]
      simp [get_or_create, hget]
    rw [h2, h1]
    simp

theorem tuning_at_most_once_witness :
    (cache_get (if ([] : List (Nat × OpHandle)).length = 0 then [] else []) 7 = none →
      (get_or_create (get_or_create ⟨[], 0, 0, 0⟩ [] 7 true).2 [] 7 true).1
          = (get_or_create ⟨[], 0, 0, 0⟩ [] 7 true).1
      ∧ (get_or_create (get_or_create ⟨[], 0, 0, 0⟩ [] 7 true).2 [] 7 true).2
          = (get_or_create ⟨[], 0, 0, 0⟩ [] 7 true).2
      ∧ (get_or_create ⟨[], 0, 0, 0⟩ [] 7 true).2.tunes = 0 + 1
      ∧ (get_or_create (get_or_create ⟨[], 0, 0, 0⟩ [] 7 true).2 [] 7 true).2.tunes
          = 0 + 1)
    ∧ (get_or_create (get_or_create ⟨[], 0, 0, 0⟩ [] 7 true).2 [] 7 true).2.tunes = 1 :=
  ⟨(tuning_at_most_once ⟨[], 0, 0, 0⟩ [] 7).2,
    ((tuning_at_most_once ⟨[], 0, 0, 0⟩ [] 7).2 (by decide)).2.2.2.trans (by decide)⟩

/-- C8 (amended): on a cache miss, `get_or_create` constructs a new handle
with tuning disabled; when `enable_tuning` is requested it tunes the handle,
inserts it into the cache and persists the cache (one save, one tuning run);
when `enable_tuning` is NOT requested, the freshly built handle is returned
untuned and is neither inserted into the cache nor persisted. -/
theorem get_or_create_miss_behavior (st : OpCacheState) (db : List (Nat × OpHandle))
    (config : Nat)
    (hn : cache_get (if st.entries.length = 0 then db else st.entries) config = none) :
    ((get_or_create st db config true).1.tuned = true
      ∧ cache_get (get_or_create st db config true).2.entries config
          = some (get_or_create st db config true).1
      ∧ (get_or_create st db config true).2.saves = st.saves + 1
      ∧ (get_or_create st db config true).2.tunes = st.tunes + 1)
    ∧ ((get_or_create st db config false).1 = { hid := st.fresh, tuned := false }
      ∧ cache_get (get_or_create st db config false).2.entries config = none
      ∧ (get_or_create st db config false).2.saves = st.saves
      ∧ (get_or_create st db config false).2.tunes = st.tunes) := by
  have hn' : cache_get (if st.entries = [] then db else st.entries) config = none := by
    simpa using hn
  have hget := cache_get_append_self
    (if st.entries = [] then db else st.entries) config
    { hid := st.fresh, tuned := true } hn'
  constructor
  · have h1 : get_or_create st db config true
        = ({ hid := st.fresh, tuned := true },
           { entries := (if st.entries = [] then db else st.entries)
                ++ [(config, { hid := st.fresh, tuned := true })],
             tunes := st.tunes + 1, saves := st.saves + 1, fresh := st.fresh + 1 }) := by
      simp [get_or_create, hn']
    rw [h1]
    exact ⟨rfl, hget, rfl, rfl⟩
  · have h0 : get_or_create st db config false
        = ({ hid := st.fresh, tuned := false },
           { entries := (if st.entries = [] then db else st.entries),
             tunes := st.tunes, saves := st.saves, fresh := st.fresh + 1 }) := by
      simp [get_or_create, hn']
    rw [h0]
    exact ⟨rfl, hn', rfl, rfl⟩

/-- C8 counterexample: a miss-path call with `enable_tuning = False` builds
and returns a fresh untuned handle, but inserts nothing into the cache and
never saves it — the newly built handle is absent from the cache and the
cache was not persisted, contradicting the claim that this holds after any
miss-path call whether or not tuning was requested. -/
theorem get_or_create_untuned_not_cached :
    (get_or_create ⟨[], 0, 0, 0⟩ [] 5 false).1 = { hid := 0, tuned := false }
    ∧ (get_or_create ⟨[], 0, 0, 0⟩ [] 5 false).2.entries = []
    ∧ cache_get (get_or_create ⟨[], 0, 0, 0⟩ [] 5 false).2.entries 5 = none
    ∧ (get_or_create ⟨[], 0, 0, 0⟩ [] 5 false).2.saves = 0 := by
  refine ⟨by decide, by decide, by decide, by decide⟩

theorem get_or_create_miss_behavior_witness :
    ((get_or_create ⟨[], 0, 0, 0⟩ [] 5 true).1.tuned = true
      ∧ cache_get (get_or_create ⟨[], 0, 0, 0⟩ [] 5 true).2.entries 5
          = some (get_or_create ⟨[], 0, 0, 0⟩ [] 5 true).1
      ∧ (get_or_create ⟨[], 0, 0, 0⟩ [] 5 true).2.saves = 0 + 1
      ∧ (get_or_create ⟨[], 0, 0, 0⟩ [] 5 true).2.tunes = 0 + 1)
    ∧ ((get_or_create ⟨[], 0, 0, 0⟩ [] 5 false).1 = { hid := 0, tuned := false }
      ∧ cache_get (get_or_create ⟨[], 0, 0, 0⟩ [] 5 false).2.entries 5 = none
      ∧ (get_or_create ⟨[], 0, 0, 0⟩ [] 5 false).2.saves = 0
      ∧ (get_or_create ⟨[], 0, 0, 0⟩ [] 5 false).2.tunes = 0) :=
  get_or_create_miss_behavior ⟨[], 0, 0, 0⟩ [] 5 (by decide)

/-- A symbolic argument of the operator entry-point call in `Linear.forward`:
raw buffer pointers, the optional dynamic leading-dimension size, and the
CUDA stream token. -/
inductive CallArg
  | act
  | weight
  | qweight
  | scales
  | zeros
  | bias
  | output
  | dyn (m : Nat)
  | stream
deriving DecidableEq

/-- Source method `Linear.init_params`: the ordered parameter-buffer pointer list
`q_params`.  Consistent mode contributes `[weight] (+ bias)`; quantized mode
contributes `[qweight] (+ scales if with_scaling) (+ zeros if with_zeros)
(+ bias if with_bias)`, in this exact order. -/
def init_params (consistent with_scaling with_zeros with_bias : Bool) : List CallArg :=
  if consistent then
    [CallArg.weight] ++ (if with_bias then [CallArg.bias] else [])
  else
    [CallArg.qweight] ++ (if with_scaling then [CallArg.scales] else [])
      ++ (if with_zeros then [CallArg.zeros] else [])
      ++ (if with_bias then [CallArg.bias] else [])

/-- Source method `Linear.forward`: the positional argument list handed to
`self.bitblas_matmul.lib.call`: the activation pointer, then `q_params`, then
the output pointer, then — iff the handle declares a dynamic range — the size
`reduce(operator.mul, A.shape[:-1], 1)`, then the stream token.  `ashape` is
the shape of the activation after the handle's `transform_input`. -/
def forward_args (consistent with_scaling with_zeros with_bias : Bool)
    (has_dynamic_range : Bool) (ashape : List Nat) : List CallArg :=
  [CallArg.act] ++ init_params consistent with_scaling with_zeros with_bias
    ++ [CallArg.output]
    ++ (if has_dynamic_range then
          [CallArg.dyn (ashape.dropLast.foldl (fun a b => a * b) 1)]
        else [])
    ++ [CallArg.stream]

/-- C4: for a quantized (non-consistent) layer whose config enables scaling,
zeros and bias, the operator entry point is invoked with exactly the
positional sequence [activation, packed-weight, scales, zeros, bias, output,
dynamic-size (present iff the handle declares a dynamic leading-dimension
parameter, equal to the product of all activation dimensions except the
last), stream-token], with the stream token last. -/
theorem forward_dispatch_order (has_dynamic_range : Bool) (ashape : List Nat) :
    forward_args false true true true has_dynamic_range ashape
      = [CallArg.act, CallArg.qweight, CallArg.scales, CallArg.zeros, CallArg.bias,
          CallArg.output]
        ++ (if has_dynamic_range then [CallArg.dyn ashape.dropLast.prod] else [])
        ++ [CallArg.stream]
    ∧ (forward_args false true true true has_dynamic_range ashape).getLast?
        = some CallArg.stream := by
  cases has_dynamic_range <;>
    simp [forward_args, init_params, List.prod_eq_foldl]

/-- Source method `Linear._set_group_size`: a `group_size` of `-1` (or `None`) is
normalized to `in_features`. -/
def set_group_size (group_size : Option Int) (in_features : Int) : Int :=
  match group_size with
  | none => in_features
  | some g => if g = -1 then in_features else g

/-- The shape of the dense weight buffer registered by
`Linear._initialize_buffers` when `self.consistent` holds
(`A_dtype == W_dtype`):
`torch.zeros((out_features, in_features // self.group_size), dtype=torch_dtype)`
with Python `//` being floor division. -/
def consistent_weight_shape (in_features out_features : Int)
    (group_size : Option Int) : Int × Int :=
  (out_features, Int.fdiv in_features (set_group_size group_size in_features))

/-- C10: in consistent mode the weight buffer allocated at construction has
shape `(out_features, in_features // group_size)` — not
`(out_features, in_features)` — so with the default `group_size = -1`
(normalized to `in_features`) it has exactly one column per output row,
regardless of `in_features`. -/
theorem consistent_weight_buffer_shape (in_features out_features : Int)
    (hpos : 0 < in_features) :
    set_group_size (some (-1)) in_features = in_features
    ∧ consistent_weight_shape in_features out_features (some (-1)) = (out_features, 1)
    ∧ consistent_weight_shape in_features out_features none = (out_features, 1)
    ∧ (1 < in_features →
        consistent_weight_shape in_features out_features (some (-1))
          ≠ (out_features, in_features))
    ∧ (∀ g : Int, 0 < g →
        consistent_weight_shape in_features out_features (some g)
          = (out_features, Int.fdiv in_features g)) := by
  have hfd : Int.fdiv in_features in_features = 1 := by
    rw [Int.fdiv_eq_ediv _ hpos.le]
    exact Int.ediv_self hpos.ne'
  refine ⟨rfl, ?_, ?_, ?_, ?_⟩
  · simp [consistent_weight_shape, set_group_size, hfd]
  · simp [consistent_weight_shape, set_group_size, hfd]
  · intro h1
    have hsh : consistent_weight_shape in_features out_features (some (-1))
        = (out_features, 1) := by
      simp [consistent_weight_shape, set_group_size, hfd]
    rw [hsh]
    intro hcontra
    have h2 := congrArg Prod.snd hcontra
    simp at h2
    omega
  · intro g hg
    simp only [consistent_weight_shape, set_group_size]
    rw [if_neg (by omega : ¬ g = -1)]

theorem consistent_weight_buffer_shape_witness :
    set_group_size (some (-1)) 64 = 64
    ∧ consistent_weight_shape 64 16 (some (-1)) = (16, 1)
    ∧ consistent_weight_shape 64 16 none = (16, 1)
    ∧ (1 < (64 : Int) → consistent_weight_shape 64 16 (some (-1)) ≠ (16, 64))
    ∧ (∀ g : Int, 0 < g → consistent_weight_shape 64 16 (some g)
        = (16, Int.fdiv 64 g)) :=
  consistent_weight_buffer_shape 64 16 (by norm_num)
